import Mathlib

/-!
Verification development for the deformable-body FEM core and support code of
this repository.  The development has three parts:

* The FEM core (Newmark state updaters, Schur-complement contact reduction,
  the conjugate-gradient linear solver, Dirichlet boundary conditions, the
  per-element cache of FemState, and the step orchestration).  Only the build
  declarations of these components are present in the source tree, so their
  definitions below are modelled from the specification text and are marked
  as such in their doc comments.
* MeshFieldLinear (piecewise-linear fields on simplicial meshes), embedded
  from the source header.
* YamlReadArchive merge-key rewriting, embedded from the source file
  common/yaml/yaml_read_archive.cc.

All arithmetic is over ℚ, the exact-arithmetic stand-in for the C++ doubles.
The file lists all definitions first, then all theorems.
-/

open Matrix

/-- A symmetric positive-definite rational matrix: symmetric, and the
quadratic form is positive on every nonzero vector. -/
def IsSPD {n : ℕ} (M : Matrix (Fin n) (Fin n) ℚ) : Prop :=
  M.IsSymm ∧ ∀ x : Fin n → ℚ, x ≠ 0 → 0 < dotProduct x (M.mulVec x)

/-- Computable matrix inverse over ℚ via the adjugate; agrees with Mathlib's
noncomputable `Matrix.inv` (see `matInv_eq_inv`). -/
def matInv {n : ℕ} (M : Matrix (Fin n) (Fin n) ℚ) : Matrix (Fin n) (Fin n) ℚ :=
  (M.det)⁻¹ • M.adjugate

/-- Modelled from the spec: the Schur-complement solve of the contact layer
(schur_complement.cc is absent from the source tree; only its build
declaration is present).  Given the combined block system
`[A B; Bᵀ C] [x_elim; x_ret] = [r_elim; r_ret]`, it forms the reduced
operator `C − Bᵀ A⁻¹ B` and reduced right-hand side `r_ret − Bᵀ A⁻¹ r_elim`,
solves the reduced system for `x_ret`, and recovers
`x_elim = A⁻¹ (r_elim − B x_ret)` by back-substitution. -/
def schurSolve {ne nr : ℕ} (A : Matrix (Fin ne) (Fin ne) ℚ)
    (B : Matrix (Fin ne) (Fin nr) ℚ) (C : Matrix (Fin nr) (Fin nr) ℚ)
    (rElim : Fin ne → ℚ) (rRet : Fin nr → ℚ) : (Fin ne → ℚ) × (Fin nr → ℚ) :=
  let S := C - Bᵀ * matInv A * B
  let rhs := rRet - (Bᵀ).mulVec ((matInv A).mulVec rElim)
  let xRet := (matInv S).mulVec rhs
  let xElim := (matInv A).mulVec (rElim - B.mulVec xRet)
  (xElim, xRet)

/-- A kinematic FEM state: the generalized position, velocity and
acceleration vectors of dimension 3N (here an abstract dimension `n`). -/
structure KinState (n : ℕ) where
  q : Fin n → ℚ
  v : Fin n → ℚ
  a : Fin n → ℚ

/-- Modelled from the spec: the acceleration-based Newmark state updater
(acceleration_newmark_scheme.cc is absent from the source tree; only its
build declaration is present).  The primary unknown is `a_{n+1}`; given
Newmark parameters β, γ it advances
`v_{n+1} = v_n + dt[(1−γ)a_n + γ a_{n+1}]` and
`q_{n+1} = q_n + dt·v_n + dt²[(½−β)a_n + β a_{n+1}]`. -/
def accelerationNewmarkAdvance {n : ℕ} (dt beta gamma : ℚ) (s : KinState n)
    (aNext : Fin n → ℚ) : KinState n where
  q := fun i => s.q i + dt * s.v i + dt ^ 2 * ((1/2 - beta) * s.a i + beta * aNext i)
  v := fun i => s.v i + dt * ((1 - gamma) * s.a i + gamma * aNext i)
  a := aNext

/-- Modelled from the spec: the velocity-based Newmark updater derives
`a_{n+1}` from the velocity relation `v_{n+1} = v_n + dt[(1−γ)a_n + γ a_{n+1}]`,
rearranged to solve for `a_{n+1}` given `v_{n+1}`. -/
def newmarkSolveAccel {n : ℕ} (dt gamma : ℚ) (s : KinState n)
    (vNext : Fin n → ℚ) : Fin n → ℚ :=
  fun i => (vNext i - s.v i - dt * (1 - gamma) * s.a i) / (dt * gamma)

/-- Modelled from the spec: the velocity-based Newmark state updater
(velocity_newmark_scheme.cc is absent from the source tree; only its build
declaration is present).  The primary unknown is `v_{n+1}`; `a_{n+1}` and
`q_{n+1}` are derived algebraically from the same Newmark relations. -/
def velocityNewmarkAdvance {n : ℕ} (dt beta gamma : ℚ) (s : KinState n)
    (vNext : Fin n → ℚ) : KinState n where
  q := fun i => s.q i + dt * s.v i
    + dt ^ 2 * ((1/2 - beta) * s.a i + beta * newmarkSolveAccel dt gamma s vNext i)
  v := vNext
  a := newmarkSolveAccel dt gamma s vNext

/-- Modelled from the spec: the error taxonomy of a simulation step
(§7 of the spec): configuration errors, numerical errors, the two
convergence-failure conditions distinguishing which inner loop failed, and
contact-consistency errors. -/
inductive StepError where
  | configuration : StepError
  | numerical : StepError
  | newtonFailure : StepError
  | cgFailure : StepError
  | contactConsistency : StepError
deriving DecidableEq

/-- Modelled from the spec: one time step of the per-step orchestration
(deformable_rigid_manager.cc and fem_solver.h are absent from the source
tree; only their build declarations are present).  The free-motion solve and
the contact-resolution phase are abstracted as fallible computations of a
candidate next state; each may fail with any `StepError`.  The candidate
state is committed to the owned `FemState` only after every phase has
succeeded; the function returns the step outcome together with the state
after the step. -/
def stepOnce {n : ℕ} (freeMotion : KinState n → Except StepError (KinState n))
    (contactResolve : KinState n → Except StepError (KinState n))
    (s : KinState n) : Except StepError Unit × KinState n :=
  match freeMotion s with
  | Except.error e => (Except.error e, s)
  | Except.ok sStar =>
    match contactResolve sStar with
    | Except.error e => (Except.error e, s)
    | Except.ok sNew => (Except.ok (), sNew)

/-- Modelled from the spec: a Dirichlet boundary condition
(dirichlet_boundary_condition.h is absent from the source tree; only its
build declaration is present): a mapping from DOF index to an optionally
prescribed value. -/
def BoundaryCondition (n : ℕ) := Fin n → Option ℚ

/-- Modelled from the spec: applying a boundary condition to the residual
zeroes the residual entries of prescribed DOFs (treated as satisfied by
construction). -/
def applyBCToResidual {n : ℕ} (bc : BoundaryCondition n) (r : Fin n → ℚ) :
    Fin n → ℚ :=
  fun i => match bc i with
  | some _ => 0
  | none => r i

/-- Modelled from the spec: applying a boundary condition to the tangent
matrix replaces the rows and columns of prescribed DOFs by the identity. -/
def applyBCToTangent {n : ℕ} (bc : BoundaryCondition n)
    (K : Matrix (Fin n) (Fin n) ℚ) : Matrix (Fin n) (Fin n) ℚ :=
  Matrix.of fun i j =>
    if (bc i).isSome || (bc j).isSome then (if i = j then 1 else 0) else K i j

/-- Modelled from the spec: a per-element cache entry of last-evaluated
element contributions, keyed by a state version/generation stamp
(element_cache_entry.h is absent from the source tree; only its build
declaration is present). -/
structure ElementCacheEntry where
  stamp : ℕ
  value : ℚ

/-- Modelled from the spec: FemState (fem_state.h is absent from the source
tree; only its build declaration is present) owns the state vectors
`q, v, a`, the cache generation counter, and the per-element cache vector. -/
structure FemState (n m : ℕ) where
  q : Fin n → ℚ
  v : Fin n → ℚ
  a : Fin n → ℚ
  gen : ℕ
  cache : Fin m → ElementCacheEntry

/-- Modelled from the spec: mutating `q` increments the generation counter,
invalidating all cache entries lazily. -/
def FemState.setQ {n m : ℕ} (s : FemState n m) (q' : Fin n → ℚ) : FemState n m :=
  { s with q := q', gen := s.gen + 1 }

/-- Modelled from the spec: mutating `v` increments the generation counter,
invalidating all cache entries lazily. -/
def FemState.setV {n m : ℕ} (s : FemState n m) (v' : Fin n → ℚ) : FemState n m :=
  { s with v := v', gen := s.gen + 1 }

/-- Modelled from the spec: mutating `a` increments the generation counter,
invalidating all cache entries lazily. -/
def FemState.setA {n m : ℕ} (s : FemState n m) (a' : Fin n → ℚ) : FemState n m :=
  { s with a := a', gen := s.gen + 1 }

/-- The per-element quantity an element computes from the current state; the
cache stores its last evaluation.  It is abstracted as a function argument
(the element's residual/tangent computation). -/
def ElementFn (n m : ℕ) :=
  (Fin n → ℚ) → (Fin n → ℚ) → (Fin n → ℚ) → Fin m → ℚ

/-- Modelled from the spec: reading the per-element cache entry.  A valid
entry (stamp equal to the current generation) is served from the cache; an
invalidated entry is recomputed from the current state and re-stamped. -/
def FemState.readElement {n m : ℕ} (f : ElementFn n m) (s : FemState n m)
    (e : Fin m) : ℚ × FemState n m :=
  if (s.cache e).stamp = s.gen then ((s.cache e).value, s)
  else
    let val := f s.q s.v s.a e
    (val, { s with cache := Function.update s.cache e ⟨s.gen, val⟩ })

/-- Well-formedness of the per-element cache, from the spec's invariant: a
cache entry is valid iff its stamp equals the current generation counter, and
a valid entry holds the value computed from the current state.  Stamps never
exceed the current generation. -/
def FemState.CacheWF {n m : ℕ} (f : ElementFn n m) (s : FemState n m) : Prop :=
  (∀ e, (s.cache e).stamp ≤ s.gen)
  ∧ (∀ e, (s.cache e).stamp = s.gen → (s.cache e).value = f s.q s.v s.a e)

/-
MeshFieldLinear, embedded from the source header (src/unnamed/part_001).
-/

/-- A simplicial mesh with `nv` vertices and `ne` elements of arity `k`
(3 for triangles, 4 for tetrahedra): vertex positions in the mesh frame M,
per-element vertex index tuples, and the two geometric routines that
MeshFieldLinear delegates to the mesh type (CalcGradientVectorOfLinearField
and CalcBarycentric), which live outside this source file. -/
structure SimplicialMesh (nv ne k : ℕ) where
  vertex : Fin nv → Fin 3 → ℚ
  element : Fin ne → Fin k → Fin nv
  gradientVectorOfLinearField : (Fin k → ℚ) → Fin ne → Fin 3 → ℚ
  barycentric : (Fin 3 → ℚ) → Fin ne → Fin k → ℚ

/-- The MeshFieldLinear data: the referenced mesh, one field value per
vertex, and — when the gradient field was calculated — one gradient vector
per element together with the cached value of each element's linear function
at the mesh-frame origin Mo.  `none` represents the empty `gradients_` and
`values_at_Mo_` vectors of a field constructed with
`calculate_gradient = false`. -/
structure MeshFieldLinear (nv ne k : ℕ) where
  mesh : SimplicialMesh nv ne k
  values : Fin nv → ℚ
  gradients : Option (Fin ne → Fin 3 → ℚ)
  valuesAtMo : Option (Fin ne → ℚ)

/-- `CalcGradientVector` of the source: gathers the element's vertex values
and delegates to the mesh. -/
def calcGradientVector {nv ne k : ℕ} (mesh : SimplicialMesh nv ne k)
    (values : Fin nv → ℚ) (e : Fin ne) : Fin 3 → ℚ :=
  mesh.gradientVectorOfLinearField (fun i => values (mesh.element e i)) e

/-- `CalcValueAtMeshOrigin` of the source:
`fᵉ(Mo) = f(V₀) − ∇fᵉ⋅p_MV₀`, computed from the element's 0th vertex. -/
def calcValueAtMeshOrigin {nv ne k : ℕ} [NeZero k] (mesh : SimplicialMesh nv ne k)
    (values : Fin nv → ℚ) (gradients : Fin ne → Fin 3 → ℚ) (e : Fin ne) : ℚ :=
  values (mesh.element e 0) - dotProduct (gradients e) (mesh.vertex (mesh.element e 0))

/-- The MeshFieldLinear constructor: stores the values, and when
`calculate_gradient` is true also computes the per-element gradient field and
the per-element value at the mesh origin. -/
def mkMeshFieldLinear {nv ne k : ℕ} [NeZero k] (mesh : SimplicialMesh nv ne k)
    (values : Fin nv → ℚ) (calculate_gradient : Bool) : MeshFieldLinear nv ne k :=
  if calculate_gradient then
    let grads := calcGradientVector mesh values
    { mesh := mesh, values := values, gradients := some grads,
      valuesAtMo := some (calcValueAtMeshOrigin mesh values grads) }
  else
    { mesh := mesh, values := values, gradients := none, valuesAtMo := none }

/-- `Evaluate` of the source: barycentric interpolation
`f(Q) = ∑ bᵢ·Fᵉᵢ` over the element's vertices. -/
def MeshFieldLinear.evaluate {nv ne k : ℕ} (f : MeshFieldLinear nv ne k)
    (e : Fin ne) (b : Fin k → ℚ) : ℚ :=
  Finset.sum Finset.univ fun i => b i * f.values (f.mesh.element e i)

/-- `EvaluateCartesian` of the source: when the gradient field was
calculated, evaluates `∇fᵉ⋅p + fᵉ(Mo)` directly; otherwise converts the
Cartesian coordinates to barycentric coordinates first. -/
def MeshFieldLinear.evaluateCartesian {nv ne k : ℕ} (f : MeshFieldLinear nv ne k)
    (e : Fin ne) (p : Fin 3 → ℚ) : ℚ :=
  match f.gradients, f.valuesAtMo with
  | some g, some vMo => dotProduct (g e) p + vMo e
  | _, _ => f.evaluate e (f.mesh.barycentric p e)

/-- `EvaluateGradient` of the source: throws when the gradient field was not
calculated, and returns the stored per-element gradient vector otherwise. -/
def MeshFieldLinear.evaluateGradient {nv ne k : ℕ} (f : MeshFieldLinear nv ne k)
    (e : Fin ne) : Except String (Fin 3 → ℚ) :=
  match f.gradients with
  | none => Except.error "Gradient vector was not calculated."
  | some g => Except.ok (g e)

/-
YamlReadArchive merge-key rewriting, embedded from
src/common/yaml/yaml_read_archive.cc.
-/

/-- A YAML node, restricted to the shapes yaml_read_archive.cc manipulates.
Mapping keys are scalars (the source looks keys up via `key.Scalar()`), and
a mapping is an ordered list of key-value entries, matching yaml-cpp's
iteration order and its append-on-new-key assignment. -/
inductive YamlNode where
  | scalar (s : String) : YamlNode
  | null : YamlNode
  | sequence (items : List YamlNode) : YamlNode
  | map (entries : List (String × YamlNode)) : YamlNode

/-- Mapping lookup `(*node)[key]`: the first entry with the given key, if
any. -/
def lookupKey : List (String × YamlNode) → String → Option YamlNode
  | [], _ => none
  | (k, v) :: rest, key => if k = key then some v else lookupKey rest key

/-- `node.remove(key)`: drops the entries carrying the given key. -/
def removeKey : List (String × YamlNode) → String → List (String × YamlNode)
  | [], _ => []
  | (k, v) :: rest, key =>
    if k = key then removeKey rest key else (k, v) :: removeKey rest key

/-- `CopyWithMergeKeySemantics` of the source: copy the key-value pairs from
`source` into `dest`, but don't overwrite any existing keys.  A new key is
appended (yaml-cpp appends on assignment to an absent key). -/
def copyWithMergeKeySemantics :
    List (String × YamlNode) → List (String × YamlNode) → List (String × YamlNode)
  | [], dest => dest
  | (k, v) :: rest, dest =>
    match lookupKey dest k with
    | some _ => copyWithMergeKeySemantics rest dest
    | none => copyWithMergeKeySemantics rest (dest ++ [(k, v)])

/-- The Sequence branch of `RewriteMergeKeys`: merge each Map of the
sequence into the node in order; a non-Map item raises the error that
`ReportError` throws in the source. -/
def mergeSequenceIntoMap :
    List YamlNode → List (String × YamlNode) → Except String (List (String × YamlNode))
  | [], dest => Except.ok dest
  | YamlNode.map m :: rest, dest =>
    mergeSequenceIntoMap rest (copyWithMergeKeySemantics m dest)
  | _ :: _, _ =>
    Except.error "has invalid merge key type (Sequence-of-non-Mapping) within"

/-- `YamlReadArchive::RewriteMergeKeys` of the source.  The node must be a
Map (a `DRAKE_DEMAND` in the source, modelled as an error).  If the node has
no `<<` key it is returned unchanged; otherwise the `<<` entry is removed and
its value — a Map, or a Sequence of Maps — is merged into the node without
overwriting keys present at the time of each copy; a Scalar or Null merge
value raises the corresponding `ReportError` exception. -/
def rewriteMergeKeys : YamlNode → Except String YamlNode
  | YamlNode.map entries =>
    match lookupKey entries "<<" with
    | none => Except.ok (YamlNode.map entries)
    | some mergeVal =>
      let pruned := removeKey entries "<<"
      match mergeVal with
      | YamlNode.map m => Except.ok (YamlNode.map (copyWithMergeKeySemantics m pruned))
      | YamlNode.sequence items =>
        match mergeSequenceIntoMap items pruned with
        | Except.ok out => Except.ok (YamlNode.map out)
        | Except.error msg => Except.error msg
      | YamlNode.scalar _ => Except.error "has invalid merge key type (Scalar) within"
      | YamlNode.null => Except.error "has invalid merge key type (Null) within"
  | _ => Except.error "RewriteMergeKeys requires a Mapping node"

/-- The entry lists of a sequence of Map nodes; `none` when some item is not
a Map. -/
def seqMapsOf : List YamlNode → Option (List (List (String × YamlNode)))
  | [] => some []
  | YamlNode.map m :: rest =>
    match seqMapsOf rest with
    | some ms => some (m :: ms)
    | none => none
  | _ :: _ => none

/-- The merged mapping(s) a merge-key value denotes: a Map denotes itself; a
Sequence denotes its items when all of them are Maps. -/
def mergedMapsOf : YamlNode → Option (List (List (String × YamlNode)))
  | YamlNode.map m => some [m]
  | YamlNode.sequence items => seqMapsOf items
  | _ => none

/-- Left-biased choice on optional values: the first one that is present. -/
def optOr (a b : Option YamlNode) : Option YamlNode :=
  match a with
  | some v => some v
  | none => b

/-- First-wins lookup across a list of mappings: the value mated to `key` in
the earliest mapping containing it. -/
def firstLookup : List (List (String × YamlNode)) → String → Option YamlNode
  | [], _ => none
  | m :: rest, key => optOr (lookupKey m key) (firstLookup rest key)

/-- Claim C10 stated from the spec's words, for comparison with the source
behaviour: for every mapping node whose `<<` value denotes merged mapping(s),
the rewrite succeeds, every key present before the rewrite (other than `<<`)
keeps its original value, and every key-value pair of every merged mapping
whose key was not present before the rewrite is copied into the node. -/
def mergeKeyClaimLiteral : Prop :=
  ∀ (entries : List (String × YamlNode)) (mergeVal : YamlNode)
    (maps : List (List (String × YamlNode))),
    lookupKey entries "<<" = some mergeVal →
    mergedMapsOf mergeVal = some maps →
    ∃ out, rewriteMergeKeys (YamlNode.map entries) = Except.ok (YamlNode.map out)
      ∧ (∀ key, key ≠ "<<" → lookupKey entries key ≠ none →
          lookupKey out key = lookupKey entries key)
      ∧ (∀ m, m ∈ maps → ∀ key value, (key, value) ∈ m →
          lookupKey (removeKey entries "<<") key = none →
          lookupKey out key = some value)

/-
The conjugate-gradient solver (claim C6).
-/

/-- The iteration state of the conjugate-gradient solver: current iterate,
residual, and search direction. -/
structure CGState (n : ℕ) where
  x : Fin n → ℚ
  r : Fin n → ℚ
  p : Fin n → ℚ

/-- Modelled from the spec: one iteration of the conjugate-gradient solver
against the SPD operator `A` (eigen_conjugate_gradient_solver.h is absent
from the source tree; only its build declaration is present).  These are the
standard CG recurrences: `α = rᵀr / pᵀAp`, `x ← x + αp`, `r ← r − αAp`,
`β = r'ᵀr' / rᵀr`, `p ← r' + βp`.  The solver is matrix-free: only the
matrix-vector product `A.mulVec` is used. -/
def cgStep {n : ℕ} (A : Matrix (Fin n) (Fin n) ℚ) (s : CGState n) : CGState n :=
  let Ap := A.mulVec s.p
  let alpha := dotProduct s.r s.r / dotProduct s.p Ap
  let r' := s.r - alpha • Ap
  let beta := dotProduct r' r' / dotProduct s.r s.r
  { x := s.x + alpha • s.p
    r := r'
    p := r' + beta • s.p }

/-- The initial CG state for `A·x = b` from the initial guess `x0`:
`r₀ = p₀ = b − A x₀`. -/
def cgInit {n : ℕ} (A : Matrix (Fin n) (Fin n) ℚ) (b x0 : Fin n → ℚ) :
    CGState n where
  x := x0
  r := b - A.mulVec x0
  p := b - A.mulVec x0

/-- The CG state after `k` iterations. -/
def cgIterate {n : ℕ} (A : Matrix (Fin n) (Fin n) ℚ) (b x0 : Fin n → ℚ) :
    ℕ → CGState n
  | 0 => cgInit A b x0
  | k + 1 => cgStep A (cgIterate A b x0 k)

/-- The residual after `k` CG iterations. -/
def cgR {n : ℕ} (A : Matrix (Fin n) (Fin n) ℚ) (b x0 : Fin n → ℚ) (k : ℕ) :
    Fin n → ℚ :=
  (cgIterate A b x0 k).r

/-- The search direction after `k` CG iterations. -/
def cgP {n : ℕ} (A : Matrix (Fin n) (Fin n) ℚ) (b x0 : Fin n → ℚ) (k : ℕ) :
    Fin n → ℚ :=
  (cgIterate A b x0 k).p

/-- The iterate after `k` CG iterations. -/
def cgX {n : ℕ} (A : Matrix (Fin n) (Fin n) ℚ) (b x0 : Fin n → ℚ) (k : ℕ) :
    Fin n → ℚ :=
  (cgIterate A b x0 k).x

/-- The CG step length `αₖ = rₖᵀrₖ / pₖᵀApₖ`. -/
def cgAlpha {n : ℕ} (A : Matrix (Fin n) (Fin n) ℚ) (b x0 : Fin n → ℚ) (k : ℕ) : ℚ :=
  dotProduct (cgR A b x0 k) (cgR A b x0 k)
    / dotProduct (cgP A b x0 k) (A.mulVec (cgP A b x0 k))

/-- The CG direction-update coefficient `βₖ = rₖ₊₁ᵀrₖ₊₁ / rₖᵀrₖ`. -/
def cgBeta {n : ℕ} (A : Matrix (Fin n) (Fin n) ℚ) (b x0 : Fin n → ℚ) (k : ℕ) : ℚ :=
  dotProduct (cgR A b x0 (k + 1)) (cgR A b x0 (k + 1))
    / dotProduct (cgR A b x0 k) (cgR A b x0 k)

/-- A concrete one-vertex, one-element mesh used to instantiate the
MeshFieldLinear theorems on concrete data. -/
def meshW : SimplicialMesh 1 1 1 where
  vertex := fun _ => ![1, 2, 3]
  element := fun _ _ => 0
  gradientVectorOfLinearField := fun _ _ => ![1, 1, 1]
  barycentric := fun _ _ _ => 1

/-
Theorems.  Helper lemmas first, then one theorem per claim (with its witness
or counterexample).
-/

theorem matInv_eq_inv {n : ℕ} (M : Matrix (Fin n) (Fin n) ℚ) : matInv M = M⁻¹ := by
  rw [Matrix.inv_def, Ring.inverse_eq_inv, matInv]

theorem matInv_mul {n : ℕ} {M : Matrix (Fin n) (Fin n) ℚ} (h : M.det ≠ 0) :
    matInv M * M = 1 := by
  rw [matInv_eq_inv]
  exact Matrix.nonsing_inv_mul M (isUnit_iff_ne_zero.mpr h)

theorem matInv_mulVec_cancel {n : ℕ} {M : Matrix (Fin n) (Fin n) ℚ} (h : M.det ≠ 0)
    (x : Fin n → ℚ) : (matInv M).mulVec (M.mulVec x) = x := by
  rw [Matrix.mulVec_mulVec, matInv_mul h, Matrix.one_mulVec]

/-- A symmetric positive-definite matrix has nonzero determinant. -/
theorem IsSPD.det_ne_zero {n : ℕ} {M : Matrix (Fin n) (Fin n) ℚ} (h : IsSPD M) :
    M.det ≠ 0 := by
  intro hdet
  obtain ⟨v, hv, hMv⟩ := (Matrix.exists_mulVec_eq_zero_iff).mpr hdet
  have hpos := h.2 v hv
  rw [hMv, dotProduct_zero] at hpos
  exact lt_irrefl 0 hpos

/-- Claim C1: for a combined block system `[A B; Bᵗ C][x_elim; x_ret] =
[r_elim; r_ret]` with SPD elimination block `A` (and the reduced operator
invertible, which is the well-posedness of the full solve the claim
presupposes), solving the reduced Schur-complement system for `x_ret` and
back-substituting `x_elim = A⁻¹(r_elim − B·x_ret)` reproduces exactly the
solution of the full system, in exact arithmetic. -/
theorem schurSolve_eq_full_solution {ne nr : ℕ} (A : Matrix (Fin ne) (Fin ne) ℚ)
    (B : Matrix (Fin ne) (Fin nr) ℚ) (C : Matrix (Fin nr) (Fin nr) ℚ)
    (hA : IsSPD A) (hS : (C - Bᵀ * matInv A * B).det ≠ 0)
    (rElim : Fin ne → ℚ) (rRet : Fin nr → ℚ) (xe : Fin ne → ℚ) (xr : Fin nr → ℚ)
    (h1 : A.mulVec xe + B.mulVec xr = rElim)
    (h2 : (Bᵀ).mulVec xe + C.mulVec xr = rRet) :
    schurSolve A B C rElim rRet = (xe, xr) := by
  have hAdet : A.det ≠ 0 := hA.det_ne_zero
  have hxe : xe = (matInv A).mulVec (rElim - B.mulVec xr) := by
    have h1' : rElim - B.mulVec xr = A.mulVec xe := by
      rw [← h1]; ring_nf
    rw [h1', matInv_mulVec_cancel hAdet]
  have hred : (C - Bᵀ * matInv A * B).mulVec xr
      = rRet - (Bᵀ).mulVec ((matInv A).mulVec rElim) := by
    have hBt : (Bᵀ).mulVec xe
        = (Bᵀ).mulVec ((matInv A).mulVec rElim)
          - (Bᵀ * matInv A * B).mulVec xr := by
      rw [hxe]
      simp only [Matrix.mulVec_sub, Matrix.mulVec_mulVec, Matrix.mul_assoc]
    have h2' : C.mulVec xr = rRet - (Bᵀ).mulVec xe := by
      rw [← h2]; ring_nf
    rw [Matrix.sub_mulVec, h2', hBt]
    abel
  have hxr : (matInv (C - Bᵀ * matInv A * B)).mulVec
      (rRet - (Bᵀ).mulVec ((matInv A).mulVec rElim)) = xr := by
    rw [← hred, matInv_mulVec_cancel hS]
  simp only [schurSolve]
  rw [hxr, ← hxe]

/-- Witness for C1 at a concrete 1+1 block system: `A = [[2]]`, `B = [[1]]`,
`C = [[3]]`, solution `x_elim = [1]`, `x_ret = [1]`, right-hand sides
`r_elim = [3]`, `r_ret = [4]`. -/
theorem schurSolve_eq_full_solution_witness :
    (IsSPD (Matrix.of ![![(2 : ℚ)]])
      ∧ ((Matrix.of ![![(3 : ℚ)]]) - (Matrix.of ![![(1 : ℚ)]])ᵀ
          * matInv (Matrix.of ![![(2 : ℚ)]]) * (Matrix.of ![![(1 : ℚ)]])).det ≠ 0
      ∧ (Matrix.of ![![(2 : ℚ)]]).mulVec ![1] + (Matrix.of ![![(1 : ℚ)]]).mulVec ![1] = ![3]
      ∧ ((Matrix.of ![![(1 : ℚ)]])ᵀ).mulVec ![1] + (Matrix.of ![![(3 : ℚ)]]).mulVec ![1] = ![4])
    ∧ schurSolve (Matrix.of ![![(2 : ℚ)]]) (Matrix.of ![![(1 : ℚ)]])
        (Matrix.of ![![(3 : ℚ)]]) ![3] ![4] = (![1], ![1]) := by
  have hA : IsSPD (Matrix.of ![![(2 : ℚ)]]) := by
    constructor
    · decide
    · intro x hx
      have hx0 : x 0 ≠ 0 := by
        intro h0
        apply hx
        funext i
        fin_cases i
        exact h0
      have : dotProduct x ((Matrix.of ![![(2 : ℚ)]]).mulVec x) = 2 * (x 0 * x 0) := by
        simp [dotProduct, Matrix.mulVec, Fin.sum_univ_one]
        ring
      rw [this]
      have hsq : 0 < x 0 * x 0 := mul_self_pos.mpr hx0
      linarith
  have hS : ((Matrix.of ![![(3 : ℚ)]]) - (Matrix.of ![![(1 : ℚ)]])ᵀ
      * matInv (Matrix.of ![![(2 : ℚ)]]) * (Matrix.of ![![(1 : ℚ)]])).det ≠ 0 := by
    simp [matInv, Matrix.det_fin_one, Matrix.adjugate_fin_one, Matrix.mul_apply,
      Matrix.sub_apply, Matrix.transpose_apply, Fin.sum_univ_one]
    norm_num
  have h1 : (Matrix.of ![![(2 : ℚ)]]).mulVec ![1]
      + (Matrix.of ![![(1 : ℚ)]]).mulVec ![1] = ![3] := by
    funext i; fin_cases i; simp [Matrix.mulVec, dotProduct, Fin.sum_univ_one]; norm_num
  have h2 : ((Matrix.of ![![(1 : ℚ)]])ᵀ).mulVec ![1]
      + (Matrix.of ![![(3 : ℚ)]]).mulVec ![1] = ![4] := by
    funext i; fin_cases i; simp [Matrix.mulVec, dotProduct, Fin.sum_univ_one, Matrix.transpose]
    norm_num
  exact ⟨⟨hA, hS, h1, h2⟩,
    schurSolve_eq_full_solution _ _ _ hA hS _ _ _ _ h1 h2⟩

/-- Claim C2: for every time step `dt > 0`, Newmark parameters `β ∈ [0,½]`
and `γ ∈ [0,1]`, previous state `(q_n, v_n, a_n)` and primary unknown
`a_{n+1}`, the acceleration-based Newmark updater produces exactly
`v_{n+1} = v_n + dt[(1−γ)a_n + γ a_{n+1}]` and
`q_{n+1} = q_n + dt·v_n + dt²[(½−β)a_n + β a_{n+1}]`. -/
theorem accelerationNewmark_update_formulas {n : ℕ} (dt beta gamma : ℚ)
    (hdt : 0 < dt) (hb0 : 0 ≤ beta) (hb1 : beta ≤ 1/2)
    (hg0 : 0 ≤ gamma) (hg1 : gamma ≤ 1)
    (s : KinState n) (aNext : Fin n → ℚ) :
    (accelerationNewmarkAdvance dt beta gamma s aNext).v
        = (fun i => s.v i + dt * ((1 - gamma) * s.a i + gamma * aNext i))
      ∧ (accelerationNewmarkAdvance dt beta gamma s aNext).q
        = (fun i => s.q i + dt * s.v i
            + dt ^ 2 * ((1/2 - beta) * s.a i + beta * aNext i)) :=
  ⟨rfl, rfl⟩

/-- Witness for C2 at `dt = 1`, `β = 1/4`, `γ = 1/2`, a one-DOF state. -/
theorem accelerationNewmark_update_formulas_witness :
    ((0 : ℚ) < 1 ∧ (0 : ℚ) ≤ 1/4 ∧ (1/4 : ℚ) ≤ 1/2 ∧ (0 : ℚ) ≤ 1/2 ∧ (1/2 : ℚ) ≤ 1)
    ∧ ((accelerationNewmarkAdvance (n := 1) 1 (1/4) (1/2)
          ⟨fun _ => 0, fun _ => 0, fun _ => 1⟩ (fun _ => 1)).v
        = (fun i => (⟨fun _ => 0, fun _ => 0, fun _ => 1⟩ : KinState 1).v i
            + 1 * ((1 - 1/2) * (⟨fun _ => 0, fun _ => 0, fun _ => 1⟩ : KinState 1).a i
              + 1/2 * (fun _ => (1 : ℚ)) i))
      ∧ (accelerationNewmarkAdvance (n := 1) 1 (1/4) (1/2)
          ⟨fun _ => 0, fun _ => 0, fun _ => 1⟩ (fun _ => 1)).q
        = (fun i => (⟨fun _ => 0, fun _ => 0, fun _ => 1⟩ : KinState 1).q i
            + 1 * (⟨fun _ => 0, fun _ => 0, fun _ => 1⟩ : KinState 1).v i
            + 1 ^ 2 * ((1/2 - 1/4) * (⟨fun _ => 0, fun _ => 0, fun _ => 1⟩ : KinState 1).a i
              + 1/4 * (fun _ => (1 : ℚ)) i))) :=
  ⟨by norm_num,
    accelerationNewmark_update_formulas 1 (1/4) (1/2) (by norm_num) (by norm_num)
      (by norm_num) (by norm_num) (by norm_num) _ _⟩

/-- Counterexample to C3 as literally stated: at `γ = 0` (allowed by the
claim's "for every β, γ"), with `dt = 1`, `β = 1/2`, starting state
`q = 0, v = 0, a = 1`, the velocity-based updater's rearrangement for
`a_{n+1}` divides by `dt·γ = 0`, and the two updaters disagree on `q_{n+1}`:
the acceleration-based updater yields `1/2`, the velocity-based one `0`. -/
theorem newmark_consistency_counterexample :
    (velocityNewmarkAdvance (n := 1) 1 (1/2) 0
        ⟨fun _ => 0, fun _ => 0, fun _ => 1⟩
        (fun i => (⟨fun _ => 0, fun _ => 0, fun _ => 1⟩ : KinState 1).v i
          + 1 * (⟨fun _ => 0, fun _ => 0, fun _ => 1⟩ : KinState 1).a i)).q 0
    ≠ (accelerationNewmarkAdvance (n := 1) 1 (1/2) 0
        ⟨fun _ => 0, fun _ => 0, fun _ => 1⟩
        (⟨fun _ => 0, fun _ => 0, fun _ => 1⟩ : KinState 1).a).q 0 := by
  norm_num [velocityNewmarkAdvance, accelerationNewmarkAdvance, newmarkSolveAccel]

/-- Claim C3 (amended): for every `β`, every `γ ≠ 0` and every time step
`dt`, if the acceleration-based updater is driven with `a_{n+1} = a_n` and
the velocity-based updater with the velocity `v_n + dt·a_n` implied by that
constant acceleration, the two updaters produce identical `q_{n+1}` and
`v_{n+1}` in exact arithmetic. -/
theorem newmark_accel_vel_consistent {n : ℕ} (dt beta gamma : ℚ)
    (hg : gamma ≠ 0) (s : KinState n) :
    (velocityNewmarkAdvance dt beta gamma s (fun i => s.v i + dt * s.a i)).q
        = (accelerationNewmarkAdvance dt beta gamma s s.a).q
      ∧ (velocityNewmarkAdvance dt beta gamma s (fun i => s.v i + dt * s.a i)).v
        = (accelerationNewmarkAdvance dt beta gamma s s.a).v := by
  rcases eq_or_ne dt 0 with hdt | hdt
  · subst hdt
    constructor
    · funext i
      simp only [velocityNewmarkAdvance, accelerationNewmarkAdvance, newmarkSolveAccel]
      ring
    · funext i
      simp only [velocityNewmarkAdvance, accelerationNewmarkAdvance]
      ring
  · have hdg : dt * gamma ≠ 0 := mul_ne_zero hdt hg
    have haNext : ∀ i, newmarkSolveAccel dt gamma s (fun j => s.v j + dt * s.a j) i
        = s.a i := by
      intro i
      simp only [newmarkSolveAccel]
      have hnum : s.v i + dt * s.a i - s.v i - dt * (1 - gamma) * s.a i
          = dt * gamma * s.a i := by ring
      rw [hnum, mul_div_cancel_left₀ _ hdg]
    constructor
    · funext i
      simp only [velocityNewmarkAdvance, accelerationNewmarkAdvance, haNext i]
    · funext i
      simp only [velocityNewmarkAdvance, accelerationNewmarkAdvance]
      ring

/-- Witness for C3 (amended) at `dt = 1`, `β = 1/4`, `γ = 1/2`. -/
theorem newmark_accel_vel_consistent_witness :
    ((1/2 : ℚ) ≠ 0)
    ∧ ((velocityNewmarkAdvance (n := 1) 1 (1/4) (1/2)
          ⟨fun _ => 2, fun _ => 3, fun _ => 5⟩
          (fun i => (⟨fun _ => 2, fun _ => 3, fun _ => 5⟩ : KinState 1).v i
            + 1 * (⟨fun _ => 2, fun _ => 3, fun _ => 5⟩ : KinState 1).a i)).q
        = (accelerationNewmarkAdvance (n := 1) 1 (1/4) (1/2)
            ⟨fun _ => 2, fun _ => 3, fun _ => 5⟩
            (⟨fun _ => 2, fun _ => 3, fun _ => 5⟩ : KinState 1).a).q
      ∧ (velocityNewmarkAdvance (n := 1) 1 (1/4) (1/2)
          ⟨fun _ => 2, fun _ => 3, fun _ => 5⟩
          (fun i => (⟨fun _ => 2, fun _ => 3, fun _ => 5⟩ : KinState 1).v i
            + 1 * (⟨fun _ => 2, fun _ => 3, fun _ => 5⟩ : KinState 1).a i)).v
        = (accelerationNewmarkAdvance (n := 1) 1 (1/4) (1/2)
            ⟨fun _ => 2, fun _ => 3, fun _ => 5⟩
            (⟨fun _ => 2, fun _ => 3, fun _ => 5⟩ : KinState 1).a).v) :=
  ⟨by norm_num, newmark_accel_vel_consistent 1 (1/4) (1/2) (by norm_num) _⟩

/-- Claim C4: a step that terminates in any error condition propagates the
error to the step caller, and the state vectors `q, v, a` after the step are
exactly their values before the step began — a failed step performs no state
mutation. -/
theorem stepOnce_error_no_mutation {n : ℕ}
    (freeMotion contactResolve : KinState n → Except StepError (KinState n))
    (s : KinState n) (e : StepError)
    (herr : (stepOnce freeMotion contactResolve s).1 = Except.error e) :
    (stepOnce freeMotion contactResolve s).2 = s := by
  cases hf : freeMotion s with
  | error e1 => simp [stepOnce, hf]
  | ok sStar =>
    cases hc : contactResolve sStar with
    | error e2 => simp [stepOnce, hf, hc]
    | ok sNew =>
      simp [stepOnce, hf, hc] at herr

/-- Witness for C4: a free-motion solve failing with a Newton convergence
failure leaves the concrete one-DOF state untouched. -/
theorem stepOnce_error_no_mutation_witness :
    ((stepOnce (n := 1) (fun _ => Except.error StepError.newtonFailure)
        (fun s => Except.ok s) ⟨fun _ => 1, fun _ => 2, fun _ => 3⟩).1
      = Except.error StepError.newtonFailure)
    ∧ (stepOnce (n := 1) (fun _ => Except.error StepError.newtonFailure)
        (fun s => Except.ok s) ⟨fun _ => 1, fun _ => 2, fun _ => 3⟩).2
      = ⟨fun _ => 1, fun _ => 2, fun _ => 3⟩ :=
  ⟨rfl, stepOnce_error_no_mutation _ _ _ StepError.newtonFailure rfl⟩

/-- Claim C5: with a Dirichlet boundary condition fixing DOF `i` to `v`,
applying the boundary condition zeroes the residual entry of the prescribed
DOF and replaces row `i` and column `i` of the tangent by the identity;
consequently any increment solving the boundary-conditioned Newton system
vanishes at `i`, so a state with `q[i] = v` still satisfies `q[i] = v` after
the update — the solved state keeps every prescribed DOF at its prescribed
value, regardless of the applied load `r`. -/
theorem dirichlet_bc_prescribed_dof {n : ℕ} (bc : BoundaryCondition n)
    (K : Matrix (Fin n) (Fin n) ℚ) (r d q : Fin n → ℚ) (i : Fin n) (v : ℚ)
    (hbc : bc i = some v) (hq : q i = v)
    (hsolve : (applyBCToTangent bc K).mulVec d = -(applyBCToResidual bc r)) :
    applyBCToResidual bc r i = 0
    ∧ (∀ j, applyBCToTangent bc K i j = if i = j then 1 else 0)
    ∧ (∀ j, applyBCToTangent bc K j i = if j = i then 1 else 0)
    ∧ d i = 0
    ∧ q i + d i = v := by
  have hsome : (bc i).isSome = true := by rw [hbc]; rfl
  have hres : applyBCToResidual bc r i = 0 := by
    simp [applyBCToResidual, hbc]
  have hrow : ∀ j, applyBCToTangent bc K i j = if i = j then 1 else 0 := by
    intro j
    simp [applyBCToTangent, hsome]
  have hcol : ∀ j, applyBCToTangent bc K j i = if j = i then 1 else 0 := by
    intro j
    by_cases hji : j = i
    · subst hji
      simp [applyBCToTangent, hsome]
    · simp [applyBCToTangent, hsome, hji]
  have hd : d i = 0 := by
    have h := congrFun hsolve i
    rw [Pi.neg_apply, hres, neg_zero] at h
    have h2 : dotProduct (applyBCToTangent bc K i) d = 0 := h
    have hfun : (fun j => applyBCToTangent bc K i j) = fun j => if i = j then 1 else 0 :=
      funext hrow
    rw [dotProduct] at h2
    simp only [hrow, ite_mul, one_mul, zero_mul] at h2
    rw [Finset.sum_ite_eq] at h2
    simpa using h2
  exact ⟨hres, hrow, hcol, hd, by rw [hd, add_zero, hq]⟩

/-- Witness for C5: one DOF prescribed to `v = 5`, load `r = [7]`, tangent
`K = [[4]]`, increment `d = [0]`, state `q = [5]`. -/
theorem dirichlet_bc_prescribed_dof_witness :
    ((fun _ : Fin 1 => some (5 : ℚ)) 0 = some 5
      ∧ (fun _ : Fin 1 => (5 : ℚ)) 0 = 5
      ∧ (applyBCToTangent (fun _ : Fin 1 => some (5 : ℚ))
          (Matrix.of ![![(4 : ℚ)]])).mulVec (fun _ => 0)
        = -(applyBCToResidual (fun _ : Fin 1 => some (5 : ℚ)) (fun _ => 7)))
    ∧ (applyBCToResidual (fun _ : Fin 1 => some (5 : ℚ)) (fun _ => 7) 0 = 0
      ∧ (∀ j, applyBCToTangent (fun _ : Fin 1 => some (5 : ℚ))
          (Matrix.of ![![(4 : ℚ)]]) 0 j = if 0 = j then 1 else 0)
      ∧ (∀ j, applyBCToTangent (fun _ : Fin 1 => some (5 : ℚ))
          (Matrix.of ![![(4 : ℚ)]]) j 0 = if j = 0 then 1 else 0)
      ∧ (fun _ : Fin 1 => (0 : ℚ)) 0 = 0
      ∧ (fun _ : Fin 1 => (5 : ℚ)) 0 + (fun _ : Fin 1 => (0 : ℚ)) 0 = 5) := by
  have hsolve : (applyBCToTangent (fun _ : Fin 1 => some (5 : ℚ))
      (Matrix.of ![![(4 : ℚ)]])).mulVec (fun _ => 0)
      = -(applyBCToResidual (fun _ : Fin 1 => some (5 : ℚ)) (fun _ => 7)) := by
    funext j
    fin_cases j
    simp [applyBCToTangent, applyBCToResidual, Matrix.mulVec, dotProduct,
      Fin.sum_univ_one]
  exact ⟨⟨rfl, rfl, hsolve⟩,
    dirichlet_bc_prescribed_dof (fun _ => some 5) (Matrix.of ![![(4 : ℚ)]])
      (fun _ => 7) (fun _ => 0) (fun _ => 5) 0 5 rfl rfl hsolve⟩

/-- Claim C7: the FemState per-element cache invariant is preserved by every
operation: an entry is valid iff its stamp equals the current generation
counter; each mutation of `q`, `v` or `a` increments the generation by one,
invalidating every entry; a read returns the value computed from the current
state (an invalidated entry is recomputed, never served stale) and preserves
the invariant without mutating the state vectors or the generation. -/
theorem femState_cache_invariant {n m : ℕ} (f : ElementFn n m) (s : FemState n m)
    (hwf : s.CacheWF f) (q' v' a' : Fin n → ℚ) (e : Fin m) :
    ((s.setQ q').gen = s.gen + 1 ∧ (s.setV v').gen = s.gen + 1
      ∧ (s.setA a').gen = s.gen + 1)
    ∧ (∀ e', ((s.setQ q').cache e').stamp ≠ (s.setQ q').gen
        ∧ ((s.setV v').cache e').stamp ≠ (s.setV v').gen
        ∧ ((s.setA a').cache e').stamp ≠ (s.setA a').gen)
    ∧ ((s.setQ q').CacheWF f ∧ (s.setV v').CacheWF f ∧ (s.setA a').CacheWF f)
    ∧ (s.readElement f e).1 = f s.q s.v s.a e
    ∧ ((s.readElement f e).2.CacheWF f
        ∧ (s.readElement f e).2.q = s.q ∧ (s.readElement f e).2.v = s.v
        ∧ (s.readElement f e).2.a = s.a ∧ (s.readElement f e).2.gen = s.gen) := by
  obtain ⟨hle, hval⟩ := hwf
  refine ⟨⟨rfl, rfl, rfl⟩, ?_, ?_, ?_, ?_⟩
  · intro e'
    have h := hle e'
    exact ⟨by simp only [FemState.setQ]; omega, by simp only [FemState.setV]; omega,
      by simp only [FemState.setA]; omega⟩
  · refine ⟨⟨?_, ?_⟩, ⟨?_, ?_⟩, ⟨?_, ?_⟩⟩ <;>
      intro e' <;> have h := hle e' <;>
      simp only [FemState.setQ, FemState.setV, FemState.setA] <;> omega
  · simp only [FemState.readElement]
    split
    · rename_i hstamp
      exact hval e hstamp
    · rfl
  · simp only [FemState.readElement]
    split
    · rename_i hstamp
      exact ⟨⟨hle, hval⟩, rfl, rfl, rfl, rfl⟩
    · rename_i hstamp
      refine ⟨⟨?_, ?_⟩, rfl, rfl, rfl, rfl⟩
      · intro e'
        by_cases he' : e' = e
        · subst he'
          simp [Function.update_same]
        · simp [Function.update_noteq he', hle e']
      · intro e'
        by_cases he' : e' = e
        · subst he'
          simp [Function.update_same]
        · simp only [Function.update_noteq he']
          exact hval e'

/-- Witness for C7: a one-element, one-DOF state with a valid cache entry. -/
theorem femState_cache_invariant_witness :
    (FemState.CacheWF (fun q _ _ _ => q 0)
        (⟨fun _ => 3, fun _ => 0, fun _ => 0, 0, fun _ => ⟨0, 3⟩⟩ : FemState 1 1))
    ∧ (((⟨fun _ => 3, fun _ => 0, fun _ => 0, 0, fun _ => ⟨0, 3⟩⟩ :
          FemState 1 1).readElement (fun q _ _ _ => q 0) 0).1
        = (fun _ : Fin 1 => (3 : ℚ)) 0) := by
  have hwf : FemState.CacheWF (fun q _ _ _ => q 0)
      (⟨fun _ => 3, fun _ => 0, fun _ => 0, 0, fun _ => ⟨0, 3⟩⟩ : FemState 1 1) :=
    ⟨fun _ => le_refl 0, fun _ _ => rfl⟩
  exact ⟨hwf,
    (femState_cache_invariant (fun q _ _ _ => q 0) _ hwf
      (fun _ => 0) (fun _ => 0) (fun _ => 0) 0).2.2.2.1⟩

/-- Claim C8: for a MeshFieldLinear constructed with
`calculate_gradient = true`, EvaluateCartesian on element `e` at the
position of the element's 0th vertex returns exactly the stored field value
at that vertex, because the cached origin value is
`values_[v0] − gradients_[e]⋅p_MV0`, so the dot product cancels in exact
arithmetic. -/
theorem evaluateCartesian_at_vertex0 {nv ne k : ℕ} [NeZero k]
    (mesh : SimplicialMesh nv ne k) (values : Fin nv → ℚ) (e : Fin ne) :
    (mkMeshFieldLinear mesh values true).evaluateCartesian e
        (mesh.vertex (mesh.element e 0))
      = values (mesh.element e 0) := by
  simp only [mkMeshFieldLinear, if_pos, MeshFieldLinear.evaluateCartesian,
    calcValueAtMeshOrigin]
  ring

/-- Claim C9: EvaluateGradient throws exactly when the field was constructed
with `calculate_gradient = false` (the gradients vector is empty); with
`calculate_gradient = true` it returns the stored per-element gradient
vector for every element index, without throwing. -/
theorem evaluateGradient_throws_iff {nv ne k : ℕ} [NeZero k]
    (mesh : SimplicialMesh nv ne k) (values : Fin nv → ℚ) (cg : Bool) (e : Fin ne) :
    ((∃ msg, (mkMeshFieldLinear mesh values cg).evaluateGradient e
        = Except.error msg) ↔ cg = false)
    ∧ (mkMeshFieldLinear mesh values true).evaluateGradient e
        = Except.ok (calcGradientVector mesh values e) := by
  constructor
  · cases cg <;>
      simp [mkMeshFieldLinear, MeshFieldLinear.evaluateGradient]
  · simp [mkMeshFieldLinear, MeshFieldLinear.evaluateGradient]

theorem optOr_none_right (a : Option YamlNode) : optOr a none = a := by
  cases a <;> rfl

theorem optOr_assoc (a b c : Option YamlNode) :
    optOr (optOr a b) c = optOr a (optOr b c) := by
  cases a <;> rfl

theorem lookupKey_append (xs ys : List (String × YamlNode)) (key : String) :
    lookupKey (xs ++ ys) key = optOr (lookupKey xs key) (lookupKey ys key) := by
  induction xs with
  | nil => rfl
  | cons kv rest ih =>
    obtain ⟨k, v⟩ := kv
    simp only [List.cons_append, lookupKey]
    by_cases hk : k = key
    · simp [hk, optOr]
    · simp [hk, ih]

/-- The lookup behaviour of `CopyWithMergeKeySemantics`: an existing key of
the destination keeps its value; a key absent from the destination receives
the source's value. -/
theorem copyWithMergeKeySemantics_lookup (src : List (String × YamlNode)) :
    ∀ (dest : List (String × YamlNode)) (key : String),
      lookupKey (copyWithMergeKeySemantics src dest) key
        = optOr (lookupKey dest key) (lookupKey src key) := by
  induction src with
  | nil =>
    intro dest key
    simp [copyWithMergeKeySemantics, lookupKey, optOr_none_right]
  | cons kv rest ih =>
    intro dest key
    obtain ⟨k, v⟩ := kv
    simp only [copyWithMergeKeySemantics]
    cases hdk : lookupKey dest k with
    | some w =>
      rw [ih dest key]
      simp only [lookupKey]
      by_cases hk : k = key
      · subst hk
        rw [hdk]
        simp [optOr]
      · simp [hk]
    | none =>
      rw [ih (dest ++ [(k, v)]) key, lookupKey_append]
      simp only [lookupKey]
      by_cases hk : k = key
      · subst hk
        rw [hdk]
        simp [optOr]
      · simp only [if_neg hk]
        rw [optOr_assoc]
        rfl

theorem removeKey_lookup (es : List (String × YamlNode)) (key k : String) :
    lookupKey (removeKey es key) k = if k = key then none else lookupKey es k := by
  induction es with
  | nil => simp [removeKey, lookupKey]
  | cons kv rest ih =>
    obtain ⟨k0, v0⟩ := kv
    by_cases h0 : k0 = key
    · subst h0
      by_cases hk : k = k0
      · subst hk
        simp [removeKey, ih]
      · have hk' : ¬ k0 = k := fun h => hk h.symm
        simp [removeKey, lookupKey, ih, hk, hk']
    · by_cases hk : k0 = k
      · subst hk
        have h0' : ¬ k0 = key := h0
        simp [removeKey, lookupKey, h0']
      · simp [removeKey, lookupKey, h0, hk, ih]

/-- The lookup behaviour of the Sequence branch: when every item is a Map,
the merge succeeds and the result looks up a key first in the destination
and then in the merged maps in order (earliest wins). -/
theorem mergeSequenceIntoMap_lookup (items : List YamlNode) :
    ∀ (maps : List (List (String × YamlNode))) (dest : List (String × YamlNode)),
      seqMapsOf items = some maps →
      ∃ out, mergeSequenceIntoMap items dest = Except.ok out
        ∧ ∀ key, lookupKey out key
            = optOr (lookupKey dest key) (firstLookup maps key) := by
  induction items with
  | nil =>
    intro maps dest hmaps
    simp only [seqMapsOf, Option.some.injEq] at hmaps
    subst hmaps
    exact ⟨dest, rfl, fun key => (optOr_none_right _).symm⟩
  | cons item rest ih =>
    intro maps dest hmaps
    cases item with
    | map m =>
      simp only [seqMapsOf] at hmaps
      cases hrest : seqMapsOf rest with
      | none => rw [hrest] at hmaps; simp at hmaps
      | some maps' =>
        rw [hrest] at hmaps
        simp only [Option.some.injEq] at hmaps
        subst hmaps
        obtain ⟨out, hout, hchar⟩ := ih maps' (copyWithMergeKeySemantics m dest) hrest
        refine ⟨out, hout, fun key => ?_⟩
        rw [hchar key, copyWithMergeKeySemantics_lookup, optOr_assoc]
        rfl
    | scalar s => simp [seqMapsOf] at hmaps
    | null => simp [seqMapsOf] at hmaps
    | sequence its => simp [seqMapsOf] at hmaps

/-- Counterexample to C10 as literally stated: the node
`{"<<": [{a: "1"}, {a: "2"}]}` merges two mappings that share the key `a`,
which was not present in the node before the rewrite.  The claim's "copies
each key-value pair of the merged mapping(s) into the node" would put the
second mapping's pair `a: "2"` into the node, but the source copies a pair
only when its key is still absent at copy time, so the first merged
mapping wins and the result is `{a: "1"}`. -/
theorem mergeKey_claim_counterexample : ¬ mergeKeyClaimLiteral := by
  intro hclaim
  obtain ⟨out, hout, hkeep, hcopy⟩ :=
    hclaim [("<<", YamlNode.sequence [YamlNode.map [("a", YamlNode.scalar "1")],
        YamlNode.map [("a", YamlNode.scalar "2")]])]
      (YamlNode.sequence [YamlNode.map [("a", YamlNode.scalar "1")],
        YamlNode.map [("a", YamlNode.scalar "2")]])
      [[("a", YamlNode.scalar "1")], [("a", YamlNode.scalar "2")]]
      rfl rfl
  have h2 : lookupKey out "a" = some (YamlNode.scalar "2") :=
    hcopy [("a", YamlNode.scalar "2")] (by simp) "a" (YamlNode.scalar "2")
      (by simp) rfl
  have h1 : rewriteMergeKeys (YamlNode.map [("<<", YamlNode.sequence
        [YamlNode.map [("a", YamlNode.scalar "1")],
          YamlNode.map [("a", YamlNode.scalar "2")]])])
      = Except.ok (YamlNode.map [("a", YamlNode.scalar "1")]) := rfl
  have h3 := h1.symm.trans hout
  have h4 : YamlNode.map [("a", YamlNode.scalar "1")] = YamlNode.map out := by
    injection h3
  have h5 : ([("a", YamlNode.scalar "1")] : List (String × YamlNode)) = out := by
    injection h4
  rw [← h5] at h2
  rw [show lookupKey [("a", YamlNode.scalar "1")] "a"
      = some (YamlNode.scalar "1") from rfl] at h2
  have h7 : YamlNode.scalar "1" = YamlNode.scalar "2" := by injection h2
  have h8 : "1" = "2" := by injection h7
  exact absurd h8 (by decide)

/-- Claim C10 (amended): for every YAML mapping node containing a merge key
`<<` whose value is a mapping or a sequence of mappings,
`YamlReadArchive::RewriteMergeKeys` removes the node's own `<<` entry and
merges the mapping(s) into the node with first-wins precedence: afterwards a
key resolves to the node's own pre-rewrite value if the key was already
present (other than `<<`), and otherwise to its value in the earliest merged
mapping containing it; merged entries never overwrite keys already present
at the time each pair is copied.  (A `<<` key occurring inside a merged
mapping is copied like any other key.) -/
theorem rewriteMergeKeys_first_wins (entries : List (String × YamlNode))
    (mergeVal : YamlNode) (maps : List (List (String × YamlNode)))
    (hm : lookupKey entries "<<" = some mergeVal)
    (hmaps : mergedMapsOf mergeVal = some maps) :
    ∃ out, rewriteMergeKeys (YamlNode.map entries) = Except.ok (YamlNode.map out)
      ∧ (∀ key, lookupKey out key
          = optOr (lookupKey (removeKey entries "<<") key) (firstLookup maps key))
      ∧ (∀ key, key ≠ "<<" → lookupKey entries key ≠ none →
          lookupKey out key = lookupKey entries key) := by
  cases mergeVal with
  | map m =>
    have hmm : maps = [m] := by
      simp only [mergedMapsOf, Option.some.injEq] at hmaps
      exact hmaps.symm
    subst hmm
    refine ⟨copyWithMergeKeySemantics m (removeKey entries "<<"), ?_, ?_, ?_⟩
    · simp [rewriteMergeKeys, hm]
    · intro key
      rw [copyWithMergeKeySemantics_lookup]
      simp [firstLookup, optOr_none_right]
    · intro key hne hpresent
      rw [copyWithMergeKeySemantics_lookup, removeKey_lookup, if_neg hne]
      cases hv : lookupKey entries key with
      | none => exact absurd hv hpresent
      | some w => rfl
  | sequence items =>
    simp only [mergedMapsOf] at hmaps
    obtain ⟨out, hout, hchar⟩ :=
      mergeSequenceIntoMap_lookup items maps (removeKey entries "<<") hmaps
    refine ⟨out, ?_, hchar, ?_⟩
    · simp only [rewriteMergeKeys, hm, hout]
    · intro key hne hpresent
      rw [hchar, removeKey_lookup, if_neg hne]
      cases hv : lookupKey entries key with
      | none => exact absurd hv hpresent
      | some w => rfl
  | scalar s => simp [mergedMapsOf] at hmaps
  | null => simp [mergedMapsOf] at hmaps

/-- Witness for C10 (amended) on the node
`{x: "0", "<<": {a: "1", x: "9"}}`: the rewrite succeeds, `x` keeps its
original value `"0"`, and `a` receives the merged value `"1"`. -/
theorem rewriteMergeKeys_first_wins_witness :
    (lookupKey [("x", YamlNode.scalar "0"),
        ("<<", YamlNode.map [("a", YamlNode.scalar "1"), ("x", YamlNode.scalar "9")])]
        "<<"
      = some (YamlNode.map [("a", YamlNode.scalar "1"), ("x", YamlNode.scalar "9")])
      ∧ mergedMapsOf (YamlNode.map [("a", YamlNode.scalar "1"), ("x", YamlNode.scalar "9")])
        = some [[("a", YamlNode.scalar "1"), ("x", YamlNode.scalar "9")]])
    ∧ ∃ out, rewriteMergeKeys (YamlNode.map [("x", YamlNode.scalar "0"),
        ("<<", YamlNode.map [("a", YamlNode.scalar "1"), ("x", YamlNode.scalar "9")])])
        = Except.ok (YamlNode.map out)
      ∧ (∀ key, lookupKey out key
          = optOr (lookupKey (removeKey [("x", YamlNode.scalar "0"),
              ("<<", YamlNode.map [("a", YamlNode.scalar "1"),
                ("x", YamlNode.scalar "9")])] "<<") key)
            (firstLookup [[("a", YamlNode.scalar "1"), ("x", YamlNode.scalar "9")]] key))
      ∧ (∀ key, key ≠ "<<" →
          lookupKey [("x", YamlNode.scalar "0"),
            ("<<", YamlNode.map [("a", YamlNode.scalar "1"),
              ("x", YamlNode.scalar "9")])] key ≠ none →
          lookupKey out key
            = lookupKey [("x", YamlNode.scalar "0"),
                ("<<", YamlNode.map [("a", YamlNode.scalar "1"),
                  ("x", YamlNode.scalar "9")])] key) :=
  ⟨⟨rfl, rfl⟩, rewriteMergeKeys_first_wins _ _ _ rfl rfl⟩

theorem cgR_init {n : ℕ} (A : Matrix (Fin n) (Fin n) ℚ) (b x0 : Fin n → ℚ) :
    cgR A b x0 0 = b - A.mulVec x0 := rfl

theorem cgP_init {n : ℕ} (A : Matrix (Fin n) (Fin n) ℚ) (b x0 : Fin n → ℚ) :
    cgP A b x0 0 = b - A.mulVec x0 := rfl

theorem cgX_init {n : ℕ} (A : Matrix (Fin n) (Fin n) ℚ) (b x0 : Fin n → ℚ) :
    cgX A b x0 0 = x0 := rfl

theorem cgR_succ {n : ℕ} (A : Matrix (Fin n) (Fin n) ℚ) (b x0 : Fin n → ℚ) (k : ℕ) :
    cgR A b x0 (k + 1)
      = cgR A b x0 k - cgAlpha A b x0 k • A.mulVec (cgP A b x0 k) := rfl

theorem cgX_succ {n : ℕ} (A : Matrix (Fin n) (Fin n) ℚ) (b x0 : Fin n → ℚ) (k : ℕ) :
    cgX A b x0 (k + 1) = cgX A b x0 k + cgAlpha A b x0 k • cgP A b x0 k := rfl

theorem cgP_succ {n : ℕ} (A : Matrix (Fin n) (Fin n) ℚ) (b x0 : Fin n → ℚ) (k : ℕ) :
    cgP A b x0 (k + 1)
      = cgR A b x0 (k + 1) + cgBeta A b x0 k • cgP A b x0 k := rfl

/-- For a symmetric matrix the bilinear form `x ↦ y ↦ xᵀAy` is symmetric. -/
theorem dotProduct_mulVec_symm {n : ℕ} (A : Matrix (Fin n) (Fin n) ℚ)
    (hA : A.IsSymm) (x y : Fin n → ℚ) :
    dotProduct x (A.mulVec y) = dotProduct y (A.mulVec x) := by
  rw [Matrix.dotProduct_mulVec]
  have h1 : Matrix.vecMul x A = A.mulVec x := by
    conv_lhs => rw [← hA]
    exact Matrix.vecMul_transpose A x
  rw [h1]
  exact dotProduct_comm _ _

theorem cgR_eq_p_sub {n : ℕ} (A : Matrix (Fin n) (Fin n) ℚ) (b x0 : Fin n → ℚ)
    (k : ℕ) :
    cgR A b x0 (k + 1)
      = cgP A b x0 (k + 1) - cgBeta A b x0 k • cgP A b x0 k := by
  rw [cgP_succ, add_sub_cancel_right]

theorem cgR_eq_b_sub_mulVec {n : ℕ} (A : Matrix (Fin n) (Fin n) ℚ)
    (b x0 : Fin n → ℚ) (k : ℕ) :
    cgR A b x0 k = b - A.mulVec (cgX A b x0 k) := by
  induction k with
  | zero => rfl
  | succ k ih =>
    rw [cgR_succ, cgX_succ, ih, Matrix.mulVec_add, Matrix.mulVec_smul_assoc,
      sub_add_eq_sub_sub]

theorem cgR_zero_succ {n : ℕ} (A : Matrix (Fin n) (Fin n) ℚ) (b x0 : Fin n → ℚ)
    (k : ℕ) (h : cgR A b x0 k = 0) : cgR A b x0 (k + 1) = 0 := by
  have hα : cgAlpha A b x0 k = 0 := by
    rw [cgAlpha, h, zero_dotProduct, zero_div]
  rw [cgR_succ, h, hα, zero_smul, sub_zero]

theorem cgR_eventually_zero {n : ℕ} (A : Matrix (Fin n) (Fin n) ℚ)
    (b x0 : Fin n → ℚ) (k j : ℕ) (hkj : k ≤ j) (h : cgR A b x0 k = 0) :
    cgR A b x0 j = 0 := by
  induction j with
  | zero =>
    have hk0 : k = 0 := Nat.le_zero.mp hkj
    rw [← hk0]
    exact h
  | succ j ih =>
    by_cases hkj' : k ≤ j
    · exact cgR_zero_succ A b x0 j (ih hkj')
    · have hk1 : k = j + 1 := by omega
      rw [← hk1]
      exact h

theorem dotProduct_sum_smul_left {ι : Type} [Fintype ι] {n : ℕ} (g : ι → ℚ)
    (v : ι → Fin n → ℚ) (w : Fin n → ℚ) :
    dotProduct (Finset.sum Finset.univ fun i => g i • v i) w
      = Finset.sum Finset.univ fun i => g i * dotProduct (v i) w := by
  simp only [dotProduct, Finset.sum_apply, Pi.smul_apply, smul_eq_mul,
    Finset.sum_mul, Finset.mul_sum]
  rw [Finset.sum_comm]
  apply Finset.sum_congr rfl
  intro i _
  apply Finset.sum_congr rfl
  intro j _
  ring

/-- Pairwise-orthogonal nonzero rational vectors are linearly independent. -/
theorem orthogonal_family_linearIndependent {n N : ℕ} (v : Fin N → Fin n → ℚ)
    (hnz : ∀ i, v i ≠ 0) (horth : ∀ i j, i ≠ j → dotProduct (v i) (v j) = 0) :
    LinearIndependent ℚ v := by
  rw [Fintype.linearIndependent_iff]
  intro g hg j
  have h1 : dotProduct (Finset.sum Finset.univ fun i => g i • v i) (v j) = 0 := by
    rw [hg, zero_dotProduct]
  rw [dotProduct_sum_smul_left] at h1
  have h2 : (Finset.sum Finset.univ fun i => g i * dotProduct (v i) (v j))
      = g j * dotProduct (v j) (v j) := by
    rw [Finset.sum_eq_single j]
    · intro i _ hij
      rw [horth i j hij, mul_zero]
    · intro hj
      exact absurd (Finset.mem_univ j) hj
  rw [h2] at h1
  rcases mul_eq_zero.mp h1 with h | h
  · exact h
  · exact absurd (dotProduct_self_eq_zero.mp h) (hnz j)

/-- The classical CG invariants, by strong induction: as long as every
residual so far is nonzero, the residuals are mutually orthogonal, the
search directions are mutually A-conjugate, each residual is orthogonal to
all earlier search directions, and `rᵢᵀpᵢ = rᵢᵀrᵢ`. -/
theorem cg_invariant {n : ℕ} (A : Matrix (Fin n) (Fin n) ℚ) (b x0 : Fin n → ℚ)
    (hA : IsSPD A) :
    ∀ k : ℕ, (∀ i, i < k → cgR A b x0 i ≠ 0) →
    (∀ i j, i < j → j ≤ k → dotProduct (cgR A b x0 i) (cgR A b x0 j) = 0)
    ∧ (∀ i j, i < j → j ≤ k →
        dotProduct (cgP A b x0 i) (A.mulVec (cgP A b x0 j)) = 0)
    ∧ (∀ i j, i < j → j ≤ k → dotProduct (cgR A b x0 j) (cgP A b x0 i) = 0)
    ∧ (∀ i, i ≤ k →
        dotProduct (cgR A b x0 i) (cgP A b x0 i)
          = dotProduct (cgR A b x0 i) (cgR A b x0 i)) := by
  intro k
  induction k with
  | zero =>
    intro _
    refine ⟨fun i j hij hj => by omega, fun i j hij hj => by omega,
      fun i j hij hj => by omega, fun i hi => ?_⟩
    have hi0 : i = 0 := Nat.le_zero.mp hi
    subst hi0
    rfl
  | succ k ih =>
    intro hnz
    have hnz' : ∀ i, i < k → cgR A b x0 i ≠ 0 :=
      fun i hi => hnz i (Nat.lt_succ_of_lt hi)
    obtain ⟨ha, hb, hc1, hc2⟩ := ih hnz'
    have hnzle : ∀ i, i ≤ k → cgR A b x0 i ≠ 0 :=
      fun i hi => hnz i (Nat.lt_succ_of_le hi)
    have hrr : ∀ i, i ≤ k →
        dotProduct (cgR A b x0 i) (cgR A b x0 i) ≠ 0 :=
      fun i hi h0 => hnzle i hi (dotProduct_self_eq_zero.mp h0)
    have hpne : ∀ i, i ≤ k → cgP A b x0 i ≠ 0 := by
      intro i hi hp0
      apply hrr i hi
      rw [← hc2 i hi, hp0, dotProduct_zero]
    have hdelta : ∀ i, i ≤ k →
        0 < dotProduct (cgP A b x0 i) (A.mulVec (cgP A b x0 i)) :=
      fun i hi => hA.2 _ (hpne i hi)
    have halpha : ∀ i, i ≤ k → cgAlpha A b x0 i ≠ 0 :=
      fun i hi => div_ne_zero (hrr i hi) (ne_of_gt (hdelta i hi))
    have halphadelta : ∀ i, i ≤ k →
        cgAlpha A b x0 i * dotProduct (cgP A b x0 i) (A.mulVec (cgP A b x0 i))
          = dotProduct (cgR A b x0 i) (cgR A b x0 i) :=
      fun i hi => div_mul_cancel₀ _ (ne_of_gt (hdelta i hi))
    have hRdot : ∀ (z : Fin n → ℚ) (i : ℕ),
        dotProduct z (cgR A b x0 (i + 1))
          = dotProduct z (cgR A b x0 i)
            - cgAlpha A b x0 i * dotProduct z (A.mulVec (cgP A b x0 i)) := by
      intro z i
      rw [cgR_succ, dotProduct_sub, dotProduct_smul, smul_eq_mul]
    have hRdotL : ∀ (z : Fin n → ℚ) (i : ℕ),
        dotProduct (cgR A b x0 (i + 1)) z
          = dotProduct (cgR A b x0 i) z
            - cgAlpha A b x0 i * dotProduct (A.mulVec (cgP A b x0 i)) z := by
      intro z i
      rw [cgR_succ, sub_dotProduct, smul_dotProduct, smul_eq_mul]
    have hrApk : ∀ i j, i < j → j ≤ k →
        dotProduct (cgR A b x0 i) (A.mulVec (cgP A b x0 j)) = 0 := by
      intro i j hij hj
      cases i with
      | zero =>
        have h0 : cgR A b x0 0 = cgP A b x0 0 := rfl
        rw [h0]
        exact hb 0 j hij hj
      | succ i' =>
        rw [cgR_eq_p_sub, sub_dotProduct, smul_dotProduct, smul_eq_mul,
          hb (i' + 1) j hij hj, hb i' j (by omega) hj]
        ring
    have hrApkk : ∀ j, j ≤ k →
        dotProduct (cgR A b x0 j) (A.mulVec (cgP A b x0 j))
          = dotProduct (cgP A b x0 j) (A.mulVec (cgP A b x0 j)) := by
      intro j hj
      cases j with
      | zero => rfl
      | succ j' =>
        rw [cgR_eq_p_sub, sub_dotProduct, smul_dotProduct, smul_eq_mul,
          hb j' (j' + 1) (Nat.lt_succ_self j') hj, mul_zero, sub_zero]
    have haext : ∀ i j, i < j → j ≤ k + 1 →
        dotProduct (cgR A b x0 i) (cgR A b x0 j) = 0 := by
      intro i j hij hj
      by_cases hjk : j ≤ k
      · exact ha i j hij hjk
      · have hj1 : j = k + 1 := by omega
        subst hj1
        have hik : i ≤ k := Nat.lt_succ_iff.mp hij
        rcases eq_or_lt_of_le hik with heq | hlt
        · subst heq
          rw [hRdot, hrApkk i le_rfl, halphadelta i le_rfl, sub_self]
        · rw [hRdot, ha i k hlt le_rfl, hrApk i k hlt le_rfl, mul_zero, sub_zero]
    have hc1ext : ∀ i j, i < j → j ≤ k + 1 →
        dotProduct (cgR A b x0 j) (cgP A b x0 i) = 0 := by
      intro i j hij hj
      by_cases hjk : j ≤ k
      · exact hc1 i j hij hjk
      · have hj1 : j = k + 1 := by omega
        subst hj1
        have hik : i ≤ k := Nat.lt_succ_iff.mp hij
        rw [hRdotL]
        rcases eq_or_lt_of_le hik with heq | hlt
        · subst heq
          rw [hc2 i le_rfl,
            dotProduct_comm (A.mulVec (cgP A b x0 i)) (cgP A b x0 i),
            halphadelta i le_rfl, sub_self]
        · rw [hc1 i k hlt le_rfl,
            dotProduct_comm (A.mulVec (cgP A b x0 k)) (cgP A b x0 i),
            hb i k hlt le_rfl, mul_zero, sub_zero]
    have hc2ext : ∀ i, i ≤ k + 1 →
        dotProduct (cgR A b x0 i) (cgP A b x0 i)
          = dotProduct (cgR A b x0 i) (cgR A b x0 i) := by
      intro i hi
      by_cases hik : i ≤ k
      · exact hc2 i hik
      · have hi1 : i = k + 1 := by omega
        subst hi1
        rw [cgP_succ, dotProduct_add, dotProduct_smul, smul_eq_mul,
          hc1ext k (k + 1) (Nat.lt_succ_self k) le_rfl, mul_zero, add_zero]
    have hbext : ∀ i j, i < j → j ≤ k + 1 →
        dotProduct (cgP A b x0 i) (A.mulVec (cgP A b x0 j)) = 0 := by
      intro i j hij hj
      by_cases hjk : j ≤ k
      · exact hb i j hij hjk
      · have hj1 : j = k + 1 := by omega
        subst hj1
        have hik : i ≤ k := Nat.lt_succ_iff.mp hij
        rw [dotProduct_mulVec_symm A hA.1]
        rw [cgP_succ, add_dotProduct, smul_dotProduct, smul_eq_mul]
        rcases eq_or_lt_of_le hik with heq | hlt
        · subst heq
          have hαk := halpha i le_rfl
          have hcomm0 : dotProduct (cgR A b x0 (i + 1)) (cgR A b x0 i) = 0 := by
            rw [dotProduct_comm]
            exact haext i (i + 1) (Nat.lt_succ_self i) le_rfl
          have h1 := hRdot (cgR A b x0 (i + 1)) i
          rw [hcomm0, zero_sub] at h1
          have h2 : cgAlpha A b x0 i
              * dotProduct (cgR A b x0 (i + 1)) (A.mulVec (cgP A b x0 i))
              = - dotProduct (cgR A b x0 (i + 1)) (cgR A b x0 (i + 1)) := by
            linarith [h1]
          have hbk : cgBeta A b x0 i
              * dotProduct (cgR A b x0 i) (cgR A b x0 i)
              = dotProduct (cgR A b x0 (i + 1)) (cgR A b x0 (i + 1)) :=
            div_mul_cancel₀ _ (hrr i le_rfl)
          have hαδ := halphadelta i le_rfl
          have key : cgAlpha A b x0 i
              * (dotProduct (cgR A b x0 (i + 1)) (A.mulVec (cgP A b x0 i))
                + cgBeta A b x0 i
                  * dotProduct (cgP A b x0 i) (A.mulVec (cgP A b x0 i))) = 0 := by
            rw [mul_add, h2,
              show cgAlpha A b x0 i * (cgBeta A b x0 i
                  * dotProduct (cgP A b x0 i) (A.mulVec (cgP A b x0 i)))
                = cgBeta A b x0 i * (cgAlpha A b x0 i
                  * dotProduct (cgP A b x0 i) (A.mulVec (cgP A b x0 i))) from by ring,
              hαδ, hbk]
            ring
          rcases mul_eq_zero.mp key with h | h
          · exact absurd h hαk
          · exact h
        · have hpk_pi : dotProduct (cgP A b x0 k) (A.mulVec (cgP A b x0 i)) = 0 := by
            rw [dotProduct_mulVec_symm A hA.1]
            exact hb i k hlt le_rfl
          have hz1 : dotProduct (cgR A b x0 (k + 1)) (cgR A b x0 i) = 0 := by
            rw [dotProduct_comm]
            exact haext i (k + 1) (by omega) le_rfl
          have hz2 : dotProduct (cgR A b x0 (k + 1)) (cgR A b x0 (i + 1)) = 0 := by
            rw [dotProduct_comm]
            exact haext (i + 1) (k + 1) (by omega) le_rfl
          have h1 := hRdot (cgR A b x0 (k + 1)) i
          rw [hz1, hz2] at h1
          have hD : cgAlpha A b x0 i
              * dotProduct (cgR A b x0 (k + 1)) (A.mulVec (cgP A b x0 i)) = 0 := by
            linarith [h1]
          have hZ : dotProduct (cgR A b x0 (k + 1)) (A.mulVec (cgP A b x0 i)) = 0 := by
            rcases mul_eq_zero.mp hD with h | h
            · exact absurd h (halpha i (le_of_lt hlt))
            · exact h
          rw [hZ, hpk_pi, mul_zero, add_zero]
    exact ⟨haext, hbext, hc1ext, hc2ext⟩

/-- Claim C6: for every exactly SPD n×n system `A·x = b`, the
conjugate-gradient solver reaches the exact solution within at most `n`
iterations in exact arithmetic: after `n` iterations the residual is zero,
the iterate satisfies `A·x = b`, and it equals `A⁻¹·b`.  (If the residual
vanishes earlier, the remaining iterations leave it at zero.) -/
theorem cg_exact_within_n_iterations {n : ℕ} (A : Matrix (Fin n) (Fin n) ℚ)
    (b x0 : Fin n → ℚ) (hA : IsSPD A) :
    (cgIterate A b x0 n).r = 0
    ∧ A.mulVec ((cgIterate A b x0 n).x) = b
    ∧ (cgIterate A b x0 n).x = (matInv A).mulVec b := by
  have hzero : ∃ k, k ≤ n ∧ cgR A b x0 k = 0 := by
    by_contra hcon
    push_neg at hcon
    have hnz : ∀ i, i < n → cgR A b x0 i ≠ 0 :=
      fun i hi => hcon i (le_of_lt hi)
    obtain ⟨ha, _, _, _⟩ := cg_invariant A b x0 hA n hnz
    have hli : LinearIndependent ℚ (fun i : Fin (n + 1) => cgR A b x0 i.val) := by
      apply orthogonal_family_linearIndependent
      · intro i
        exact hcon i.val (Nat.lt_succ_iff.mp i.isLt)
      · intro i j hij
        have hvalne : i.val ≠ j.val := fun h => hij (Fin.ext h)
        rcases lt_or_gt_of_ne hvalne with h | h
        · exact ha i.val j.val h (Nat.lt_succ_iff.mp j.isLt)
        · rw [dotProduct_comm]
          exact ha j.val i.val h (Nat.lt_succ_iff.mp i.isLt)
    have hcard := hli.fintype_card_le_finrank
    rw [Module.finrank_fin_fun, Fintype.card_fin] at hcard
    omega
  obtain ⟨k, hk, hzk⟩ := hzero
  have hrn : cgR A b x0 n = 0 := cgR_eventually_zero A b x0 k n hk hzk
  have hsolve : A.mulVec (cgX A b x0 n) = b := by
    have h2 : b - A.mulVec (cgX A b x0 n) = 0 :=
      (cgR_eq_b_sub_mulVec A b x0 n).symm.trans hrn
    have h3 : b = A.mulVec (cgX A b x0 n) := by
      rwa [sub_eq_zero] at h2
    exact h3.symm
  refine ⟨hrn, hsolve, ?_⟩
  have hx : (matInv A).mulVec (A.mulVec (cgX A b x0 n)) = cgX A b x0 n :=
    matInv_mulVec_cancel hA.det_ne_zero _
  rw [hsolve] at hx
  exact hx.symm

/-- Witness for C6 at the 1×1 SPD system `2x = 4` started from `x0 = 0`. -/
theorem cg_exact_within_n_iterations_witness :
    IsSPD (Matrix.of ![![(2 : ℚ)]])
    ∧ ((cgIterate (Matrix.of ![![(2 : ℚ)]]) ![4] ![0] 1).r = 0
      ∧ (Matrix.of ![![(2 : ℚ)]]).mulVec
          ((cgIterate (Matrix.of ![![(2 : ℚ)]]) ![4] ![0] 1).x) = ![4]
      ∧ (cgIterate (Matrix.of ![![(2 : ℚ)]]) ![4] ![0] 1).x
        = (matInv (Matrix.of ![![(2 : ℚ)]])).mulVec ![4]) := by
  have hA : IsSPD (Matrix.of ![![(2 : ℚ)]]) := by
    constructor
    · decide
    · intro x hx
      have hx0 : x 0 ≠ 0 := by
        intro h0
        apply hx
        funext i
        fin_cases i
        exact h0
      have hq : dotProduct x ((Matrix.of ![![(2 : ℚ)]]).mulVec x)
          = 2 * (x 0 * x 0) := by
        simp [dotProduct, Matrix.mulVec, Fin.sum_univ_one]
        ring
      rw [hq]
      have hsq : 0 < x 0 * x 0 := mul_self_pos.mpr hx0
      linarith
  exact ⟨hA, cg_exact_within_n_iterations (Matrix.of ![![(2 : ℚ)]]) ![4] ![0] hA⟩

/-- Witness for C8 on the concrete mesh `meshW` with constant field value 7. -/
theorem evaluateCartesian_at_vertex0_witness :
    NeZero 1
    ∧ (mkMeshFieldLinear meshW (fun _ => 7) true).evaluateCartesian 0
        (meshW.vertex (meshW.element 0 0))
      = (fun _ : Fin 1 => (7 : ℚ)) (meshW.element 0 0) :=
  ⟨⟨one_ne_zero⟩, evaluateCartesian_at_vertex0 meshW (fun _ => 7) 0⟩

/-- Witness for C9 on the concrete mesh `meshW`, instantiated at
`calculate_gradient = false`. -/
theorem evaluateGradient_throws_iff_witness :
    NeZero 1
    ∧ (((∃ msg, (mkMeshFieldLinear meshW (fun _ => 7) false).evaluateGradient 0
          = Except.error msg) ↔ false = false)
      ∧ (mkMeshFieldLinear meshW (fun _ => 7) true).evaluateGradient 0
          = Except.ok (calcGradientVector meshW (fun _ => 7) 0)) :=
  ⟨⟨one_ne_zero⟩, evaluateGradient_throws_iff meshW (fun _ => 7) false 0⟩
